import Mathlib

/-!
Shallow embedding of the two source files of this repository and proofs of
the behavioural claims about them.

* `PlotBoth` models `ccan/plot_both.py`: the genomic range resolution of
  `combined_plot`, the x-tick generation of `plot_genomic_region`, and the
  transcription-direction arrow of `plot_gene`.
* `PlotCorr` models `corr/plot_corr.py`: the zero-variance guard and Pearson
  correlation of `plot_genes`, the running axis maxima, the 2x3 subplot grid
  placement, and the colour-to-cell-type inverse lookup (whose palette,
  `preprocess.define_color_dict`, is modelled from the spec because the
  `preprocess` module is not part of the two source files).

Machine reals of the Python code are modelled as `ℚ` for the data values and
`ℝ` for the Pearson coefficient (which involves square roots); numpy's NaN
sentinel and Python exceptions that abort a computation are modelled as
`Option.none`.
-/

namespace PlotBoth

/-- One row of the exon table `GRCz11.csv` (columns `gene_name`, `start`,
`end`, `strand`).  The source column `end` is a Lean keyword, so the field is
called `stop` here. -/
structure GeneRow where
  gene_name : String
  start : ℕ
  stop : ℕ
  strand : String
deriving Repr, DecidableEq, Inhabited

/-- One row of the accessibility table `access.csv` (columns `gene_name`,
`sample_id`, `start`, `end`). -/
structure PeakRow where
  gene_name : String
  sample_id : String
  start : ℕ
  stop : ℕ
deriving Repr, DecidableEq, Inhabited

/-- polars `Series.min`: `none` on an empty column, otherwise the minimum. -/
def colMin : List ℕ → Option ℕ
  | [] => none
  | h :: t => some (t.foldl min h)

/-- polars `Series.max`: `none` on an empty column, otherwise the maximum. -/
def colMax : List ℕ → Option ℕ
  | [] => none
  | h :: t => some (t.foldl max h)

/-- Python `min(a, b)` applied to two polars column minima.  When either side
is `None` the Python call raises `TypeError`; the aborted computation is
modelled as `none`. -/
def pyMin2 : Option ℕ → Option ℕ → Option ℕ
  | some a, some b => some (min a b)
  | _, _ => none

/-- Python `max(a, b)` applied to two polars column maxima, same error
model as `pyMin2`. -/
def pyMax2 : Option ℕ → Option ℕ → Option ℕ
  | some a, some b => some (max a b)
  | _, _ => none

/-- `get_data`: filter both tables down to the rows of the requested gene. -/
def get_data (genes : List GeneRow) (access : List PeakRow) (option : String) :
    List GeneRow × List PeakRow :=
  (genes.filter (fun r => r.gene_name == option),
   access.filter (fun r => r.gene_name == option))

/-- Lines 266-267 of `combined_plot`:
`start = min(gene_data['start'].min(), atac_data['start'].min())` and
`end = max(gene_data['end'].max(), atac_data['end'].max())`.
`none` models the `TypeError` raised when either filtered table is empty. -/
def resolvedRange (gene_data : List GeneRow) (atac_data : List PeakRow) :
    Option (ℕ × ℕ) :=
  match pyMin2 (colMin (gene_data.map GeneRow.start))
          (colMin (atac_data.map PeakRow.start)),
        pyMax2 (colMax (gene_data.map GeneRow.stop))
          (colMax (atac_data.map PeakRow.stop)) with
  | some s, some e => some (s, e)
  | _, _ => none

/-- Total minimum of a list of naturals (value of `colMin` on nonempty input;
the empty case never arises under the nonemptiness hypotheses used below). -/
def listMinN : List ℕ → ℕ
  | [] => 0
  | h :: t => t.foldl min h

/-- Total maximum of a list of naturals (value of `colMax` on nonempty input). -/
def listMaxN : List ℕ → ℕ
  | [] => 0
  | h :: t => t.foldl max h

/-- Python `range(start, stop, step)` for a positive step. -/
def pyRange (start stop step : ℕ) : List ℕ :=
  (List.range ((stop - start + step - 1) / step)).map (fun i => start + step * i)

/-- Line 53 of `plot_genomic_region`:
`chromosome_ticks = list(range(start, end + 1, 5000))`. -/
def chromosome_ticks (start e : ℕ) : List ℕ :=
  pyRange start (e + 1) 5000

/-- Line 71: the on-axis tick label `f"{tick // 1000}"`. -/
def tick_axis_text (tick : ℕ) : String :=
  toString (tick / 1000)

/-- Line 60: the hover text `f"{tick // 1000} kbp"`. -/
def tick_hover_text (tick : ℕ) : String :=
  toString (tick / 1000) ++ " kbp"

/-- Line 91 of `plot_gene`: `genomic_start = gene_data['start'].min()`. -/
def genomic_start (gene_data : List GeneRow) : ℕ :=
  listMinN (gene_data.map GeneRow.start)

/-- Line 92 of `plot_gene`: `genomic_end = gene_data['end'].max()`. -/
def genomic_end (gene_data : List GeneRow) : ℕ :=
  listMaxN (gene_data.map GeneRow.stop)

/-- Lines 126-131 of `plot_gene`: the pair `(arrow, ax)` of the annotation.
`arrow` (first component) is the coordinate of the arrow head, `ax` (second
component) the coordinate of the arrow tail. -/
def arrowFor (strand : String) (gstart gend : ℕ) : ℕ × ℕ :=
  if strand = "+" then (gend, gstart) else (gstart, gend)

/-- The transcription-direction arrow drawn by `plot_gene`: the strand is
read only from the first row (`gene_data['strand'][0]`). -/
def transcription_arrow (gene_data : List GeneRow) : ℕ × ℕ :=
  arrowFor (gene_data.headI).strand (genomic_start gene_data)
    (genomic_end gene_data)

end PlotBoth

namespace PlotCorr

/-- The fixed iteration order of the six `timepoints` keys in `plot_genes`. -/
def timepoints_order : List String :=
  ["TDR126", "TDR127", "TDR128", "TDR118", "TDR125", "TDR124"]

/-- Line 153 of `plot_genes`: subplot of list-index `i` is placed at
`row=(index//3)+1, col=(index%3)+1`. -/
def subplot_pos (index : ℕ) : ℕ × ℕ :=
  (index / 3 + 1, index % 3 + 1)

/-- numpy `.mean()` of a vector. -/
def vecMean (l : List ℚ) : ℚ :=
  l.sum / l.length

/-- The centred vector `x - x.mean()` used by `scipy.stats.pearsonr`. -/
def devs (l : List ℚ) : List ℚ :=
  l.map (fun v => v - vecMean l)

/-- Dot product of two aligned vectors. -/
def sumMul (a b : List ℚ) : ℚ :=
  ((a.zip b).map (fun p => p.1 * p.2)).sum

/-- Sum of squares of a vector. -/
def sumSq (l : List ℚ) : ℚ :=
  (l.map (fun v => v * v)).sum

/-- `scipy.stats.pearsonr(x, y)[0]`: the Pearson product-moment coefficient
`dot(xm, ym) / (norm(xm) * norm(ym))` with `xm = x - mean x`. -/
noncomputable def pearson (x y : List ℚ) : ℝ :=
  ((sumMul (devs x) (devs y) : ℚ) : ℝ) /
    (Real.sqrt ((sumSq (devs x) : ℚ) : ℝ) * Real.sqrt ((sumSq (devs y) : ℚ) : ℝ))

/-- Line 125 guard `np.all(expr == expr[0])`: every entry equals the first. -/
def allEqFirst (l : List ℚ) : Prop :=
  ∀ v ∈ l, v = l.headI

instance : DecidablePred allEqFirst :=
  fun l => List.decidableBAll _ l

/-- Lines 124-129 of `plot_genes`: the correlation score appended for one
timepoint.  `none` models the `np.nan` sentinel stored when either vector has
zero variance; otherwise the Pearson coefficient is stored. -/
noncomputable def corr_score (x y : List ℚ) : Option ℝ :=
  if allEqFirst x ∨ allEqFirst y then none else some (pearson x y)

/-- The per-timepoint data triple `gene_dict[gene][sample_id]`: expression
vector, accessibility vector, and per-unit colour list. -/
structure TpData where
  rna : List ℚ
  atac : List ℚ
  colors : List String
deriving Repr, DecidableEq, Inhabited

/-- numpy `np.max` of a vector (the empty case never arises under the
nonemptiness hypotheses used below). -/
def npMax : List ℚ → ℚ
  | [] => 0
  | h :: t => t.foldl max h

/-- Lines 147-150 of `plot_genes`, one loop step:
`if np.max(v) > acc: acc = np.max(v)`. -/
def maxStep (acc : ℚ) (v : List ℚ) : ℚ :=
  if npMax v > acc then npMax v else acc

/-- The running maximum over the six timepoints, starting from `0`
(`rna_max, atac_max = 0, 0` on line 116). -/
def runningMax (vs : List (List ℚ)) : ℚ :=
  vs.foldl maxStep 0

/-- The shared x-axis upper bound `atac_max` of `plot_genes`. -/
def atac_max (ds : List TpData) : ℚ :=
  runningMax (ds.map TpData.atac)

/-- The shared y-axis upper bound `rna_max` of `plot_genes`. -/
def rna_max (ds : List TpData) : ℚ :=
  runningMax (ds.map TpData.rna)

/-- Line 169: the loop `for i in range(0, len(corr_scores))` sets every
subplot's x-axis range to `[0, atac_max]`. -/
def xaxis_ranges (ds : List TpData) : List (ℚ × ℚ) :=
  (List.range ds.length).map (fun _ => ((0 : ℚ), atac_max ds))

/-- Line 170: every subplot's y-axis range is `[0, rna_max]`. -/
def yaxis_ranges (ds : List TpData) : List (ℚ × ℚ) :=
  (List.range ds.length).map (fun _ => ((0 : ℚ), rna_max ds))

/-- Modelled from the spec: `preprocess.define_color_dict` is imported by
`corr/plot_corr.py` but the `preprocess` module is not among the source
files.  The spec describes it as a static palette: a finite mapping from
cell-type names to display colours, one colour per cell type, injective.  A
`Palette` is such an association list together with the spec's invariants. -/
structure Palette where
  entries : List (String × String)
  keys_nodup : (entries.map Prod.fst).Nodup
  colors_nodup : (entries.map Prod.snd).Nodup

/-- Line 133 of `plot_genes`:
`inv_color_dict = {v: k for k, v in color_dict.items()}`. -/
def inv_color_dict (p : Palette) : List (String × String) :=
  p.entries.map (fun q => (q.2, q.1))

/-- Line 134: `type_colors = [inv_color_dict[color] for color in colors]`.
A `none` entry models the `KeyError` raised on an unknown colour. -/
def type_colors (p : Palette) (colors : List String) : List (Option String) :=
  colors.map (fun c => List.lookup c (inv_color_dict p))

/-- A concrete palette satisfying the spec's invariants, used to instantiate
the round-trip theorem. -/
def samplePalette : Palette where
  entries := [("neuron", "#440154"), ("muscle", "#2A788E"), ("skin", "#FDE725")]
  keys_nodup := by decide
  colors_nodup := by decide

end PlotCorr

/-! ## Helper lemmas on list folds -/

theorem foldl_min_mem {α : Type*} [LinearOrder α] (t : List α) (a : α) :
    t.foldl min a ∈ a :: t := by
  induction t generalizing a with
  | nil => simp
  | cons h t ih =>
    rw [List.foldl_cons]
    rcases List.mem_cons.mp (ih (min a h)) with h2 | h2
    · rw [h2]
      rcases min_choice a h with hm | hm <;> rw [hm]
      · exact List.mem_cons_self _ _
      · exact List.mem_cons_of_mem _ (List.mem_cons_self _ _)
    · exact List.mem_cons_of_mem _ (List.mem_cons_of_mem _ h2)

theorem foldl_min_le {α : Type*} [LinearOrder α] (t : List α) (a : α) :
    ∀ v ∈ a :: t, t.foldl min a ≤ v := by
  induction t generalizing a with
  | nil => simp
  | cons h t ih =>
    intro v hv
    rw [List.foldl_cons]
    have hmem := ih (min a h)
    rcases List.mem_cons.mp hv with heq | hv'
    · rw [heq]
      exact le_trans (hmem _ (List.mem_cons_self _ _)) (min_le_left _ _)
    · rcases List.mem_cons.mp hv' with heq | hv''
      · rw [heq]
        exact le_trans (hmem _ (List.mem_cons_self _ _)) (min_le_right _ _)
      · exact hmem v (List.mem_cons_of_mem _ hv'')

theorem foldl_max_mem {α : Type*} [LinearOrder α] (t : List α) (a : α) :
    t.foldl max a ∈ a :: t := by
  induction t generalizing a with
  | nil => simp
  | cons h t ih =>
    rw [List.foldl_cons]
    rcases List.mem_cons.mp (ih (max a h)) with h2 | h2
    · rw [h2]
      rcases max_choice a h with hm | hm <;> rw [hm]
      · exact List.mem_cons_self _ _
      · exact List.mem_cons_of_mem _ (List.mem_cons_self _ _)
    · exact List.mem_cons_of_mem _ (List.mem_cons_of_mem _ h2)

theorem le_foldl_max {α : Type*} [LinearOrder α] (t : List α) (a : α) :
    ∀ v ∈ a :: t, v ≤ t.foldl max a := by
  induction t generalizing a with
  | nil => simp
  | cons h t ih =>
    intro v hv
    rw [List.foldl_cons]
    have hmem := ih (max a h)
    rcases List.mem_cons.mp hv with heq | hv'
    · rw [heq]
      exact le_trans (le_max_left _ _) (hmem _ (List.mem_cons_self _ _))
    · rcases List.mem_cons.mp hv' with heq | hv''
      · rw [heq]
        exact le_trans (le_max_right _ _) (hmem _ (List.mem_cons_self _ _))
      · exact hmem v (List.mem_cons_of_mem _ hv'')

namespace PlotBoth

theorem listMinN_mem {l : List ℕ} (hl : l ≠ []) : listMinN l ∈ l := by
  cases l with
  | nil => exact absurd rfl hl
  | cons h t => exact foldl_min_mem t h

theorem listMinN_le {l : List ℕ} (hl : l ≠ []) : ∀ v ∈ l, listMinN l ≤ v := by
  cases l with
  | nil => exact absurd rfl hl
  | cons h t => exact foldl_min_le t h

theorem listMaxN_mem {l : List ℕ} (hl : l ≠ []) : listMaxN l ∈ l := by
  cases l with
  | nil => exact absurd rfl hl
  | cons h t => exact foldl_max_mem t h

theorem le_listMaxN {l : List ℕ} (hl : l ≠ []) : ∀ v ∈ l, v ≤ listMaxN l := by
  cases l with
  | nil => exact absurd rfl hl
  | cons h t => exact le_foldl_max t h

theorem colMin_eq {l : List ℕ} (hl : l ≠ []) : colMin l = some (listMinN l) := by
  cases l with
  | nil => exact absurd rfl hl
  | cons h t => rfl

theorem colMax_eq {l : List ℕ} (hl : l ≠ []) : colMax l = some (listMaxN l) := by
  cases l with
  | nil => exact absurd rfl hl
  | cons h t => rfl

/-- C2: for a gene with at least one exon row and one peak row, the resolved
display range is exactly `[min(min exon start, min peak start),
max(max exon end, max peak end)]`; moreover that lower bound is the least
entry of the two start columns combined and the upper bound the greatest
entry of the two end columns combined. -/
theorem genomic_range_resolution (g : List GeneRow) (a : List PeakRow)
    (hg : g ≠ []) (ha : a ≠ []) :
    resolvedRange g a =
      some (min (listMinN (g.map GeneRow.start)) (listMinN (a.map PeakRow.start)),
        max (listMaxN (g.map GeneRow.stop)) (listMaxN (a.map PeakRow.stop))) ∧
    (∀ v ∈ g.map GeneRow.start ++ a.map PeakRow.start,
      min (listMinN (g.map GeneRow.start)) (listMinN (a.map PeakRow.start)) ≤ v) ∧
    min (listMinN (g.map GeneRow.start)) (listMinN (a.map PeakRow.start)) ∈
      g.map GeneRow.start ++ a.map PeakRow.start ∧
    (∀ v ∈ g.map GeneRow.stop ++ a.map PeakRow.stop,
      v ≤ max (listMaxN (g.map GeneRow.stop)) (listMaxN (a.map PeakRow.stop))) ∧
    max (listMaxN (g.map GeneRow.stop)) (listMaxN (a.map PeakRow.stop)) ∈
      g.map GeneRow.stop ++ a.map PeakRow.stop := by
  have hg1 : g.map GeneRow.start ≠ [] := by simpa using hg
  have hg2 : g.map GeneRow.stop ≠ [] := by simpa using hg
  have ha1 : a.map PeakRow.start ≠ [] := by simpa using ha
  have ha2 : a.map PeakRow.stop ≠ [] := by simpa using ha
  refine ⟨?_, ?_, ?_, ?_, ?_⟩
  · rw [resolvedRange, colMin_eq hg1, colMin_eq ha1, colMax_eq hg2, colMax_eq ha2]
    rfl
  · intro v hv
    rcases List.mem_append.mp hv with hv | hv
    · exact le_trans (min_le_left _ _) (listMinN_le hg1 v hv)
    · exact le_trans (min_le_right _ _) (listMinN_le ha1 v hv)
  · rcases min_choice (listMinN (g.map GeneRow.start)) (listMinN (a.map PeakRow.start))
      with hm | hm <;> rw [hm]
    · exact List.mem_append.mpr (Or.inl (listMinN_mem hg1))
    · exact List.mem_append.mpr (Or.inr (listMinN_mem ha1))
  · intro v hv
    rcases List.mem_append.mp hv with hv | hv
    · exact le_trans (le_listMaxN hg2 v hv) (le_max_left _ _)
    · exact le_trans (le_listMaxN ha2 v hv) (le_max_right _ _)
  · rcases max_choice (listMaxN (g.map GeneRow.stop)) (listMaxN (a.map PeakRow.stop))
      with hm | hm <;> rw [hm]
    · exact List.mem_append.mpr (Or.inl (listMaxN_mem hg2))
    · exact List.mem_append.mpr (Or.inr (listMaxN_mem ha2))

theorem genomic_range_resolution_witness :
    resolvedRange [⟨"g", 100, 200, "+"⟩, ⟨"g", 300, 400, "+"⟩]
      [⟨"g", "TDR126", 150, 350⟩] = some (100, 400) := by
  have h := genomic_range_resolution
    [⟨"g", 100, 200, "+"⟩, ⟨"g", 300, 400, "+"⟩]
    [⟨"g", "TDR126", 150, 350⟩] (by decide) (by decide)
  rw [h.1]
  rfl

end PlotBoth

namespace PlotBoth

/-- C4: the transcription arrow spans the full gene extent: for strand `"+"`
the tail (`ax`) is the gene start and the head (`arrow`) the gene end, for
strand `"-"` the tail is the gene end and the head the gene start, and on
identical coordinates the two strands produce exactly opposite arrows. -/
theorem strand_arrow_direction (g : List GeneRow) (hg : g ≠ []) :
    (g.headI.strand = "+" →
      transcription_arrow g = (genomic_end g, genomic_start g)) ∧
    (g.headI.strand = "-" →
      transcription_arrow g = (genomic_start g, genomic_end g)) ∧
    ∀ gs ge : ℕ, arrowFor "+" gs ge = Prod.swap (arrowFor "-" gs ge) := by
  refine ⟨?_, ?_, ?_⟩
  · intro h
    rw [transcription_arrow, arrowFor, if_pos h]
  · intro h
    rw [transcription_arrow, arrowFor, if_neg]
    rw [h]
    decide
  · intro gs ge
    rw [arrowFor, arrowFor, if_pos rfl, if_neg (by decide)]
    rfl

theorem strand_arrow_direction_witness :
    transcription_arrow [⟨"g", 100, 200, "+"⟩, ⟨"g", 300, 400, "+"⟩] = (400, 100) ∧
    transcription_arrow [⟨"g", 100, 200, "-"⟩, ⟨"g", 300, 400, "-"⟩] = (100, 400) := by
  constructor
  · exact (strand_arrow_direction [⟨"g", 100, 200, "+"⟩, ⟨"g", 300, 400, "+"⟩]
      (by decide)).1 rfl
  · exact (strand_arrow_direction [⟨"g", 100, 200, "-"⟩, ⟨"g", 300, 400, "-"⟩]
      (by decide)).2.1 rfl

/-- C10: the arrow reads the strand from the first exon row only — rewriting
the strand of every later row arbitrarily leaves the arrow unchanged — and
every first-row strand other than the exact string `"+"` (including empty or
malformed values) produces the reversed arrow, head at the gene start and
tail at the gene end; no validation of the strand string occurs. -/
theorem strand_first_row_only :
    (∀ g : List GeneRow, g ≠ [] → g.headI.strand ≠ "+" →
      transcription_arrow g = (genomic_start g, genomic_end g)) ∧
    ∀ (r : GeneRow) (t : List GeneRow) (f : GeneRow → String),
      transcription_arrow (r :: t.map (fun q => { q with strand := f q })) =
        transcription_arrow (r :: t) := by
  constructor
  · intro g hg hs
    rw [transcription_arrow, arrowFor, if_neg hs]
  · intro r t f
    have hstart : (t.map (fun q => { q with strand := f q })).map GeneRow.start =
        t.map GeneRow.start := by
      rw [List.map_map]
      rfl
    have hstop : (t.map (fun q => { q with strand := f q })).map GeneRow.stop =
        t.map GeneRow.stop := by
      rw [List.map_map]
      rfl
    rw [transcription_arrow, transcription_arrow, genomic_start, genomic_start,
      genomic_end, genomic_end, List.map_cons, List.map_cons, hstart,
      List.map_cons, List.map_cons, hstop]
    rfl

theorem strand_first_row_only_witness :
    transcription_arrow [⟨"g", 100, 200, "banana"⟩, ⟨"g", 300, 400, "+"⟩] =
      (100, 400) :=
  strand_first_row_only.1 [⟨"g", 100, 200, "banana"⟩, ⟨"g", 300, 400, "+"⟩]
    (by decide) (by decide)

/-- C7: if either filtered table has zero rows for the requested gene, range
resolution fails: it produces no numeric range (the polars column minimum is
`None` and Python's `min`/`max` raises, aborting the render), modelled here
as the `none` result. -/
theorem gene_not_found_fails (genes : List GeneRow) (access : List PeakRow)
    (option : String)
    (h : (get_data genes access option).1 = [] ∨ (get_data genes access option).2 = []) :
    resolvedRange (get_data genes access option).1 (get_data genes access option).2 =
      none := by
  rcases h with h | h <;> rw [resolvedRange, h]
  · rfl
  · cases hm : colMin ((get_data genes access option).1.map GeneRow.start) <;> rfl

theorem gene_not_found_fails_witness :
    resolvedRange (get_data [⟨"g1", 100, 200, "+"⟩] [] "g1").1
      (get_data [⟨"g1", 100, 200, "+"⟩] [] "g1").2 = none :=
  gene_not_found_fails [⟨"g1", 100, 200, "+"⟩] [] "g1" (Or.inr rfl)

end PlotBoth

namespace PlotBoth

theorem chromosome_ticks_card (start e : ℕ) (h : start ≤ e) :
    (chromosome_ticks start e).length = (e - start) / 5000 + 1 := by
  rw [chromosome_ticks, pyRange, List.length_map, List.length_range]
  have h1 : e + 1 - start + 5000 - 1 = (e - start) + 5000 := by omega
  rw [h1, Nat.add_div_right _ (by norm_num)]

theorem mem_chromosome_ticks (start e t : ℕ) (h : start ≤ e) :
    t ∈ chromosome_ticks start e ↔
      ∃ i, i ≤ (e - start) / 5000 ∧ t = start + 5000 * i := by
  rw [chromosome_ticks, pyRange]
  have h1 : e + 1 - start + 5000 - 1 = (e - start) + 5000 := by omega
  rw [h1, Nat.add_div_right _ (by norm_num)]
  simp only [List.mem_map, List.mem_range]
  constructor
  · rintro ⟨i, hi, rfl⟩
    exact ⟨i, by omega, rfl⟩
  · rintro ⟨i, hi, rfl⟩
    exact ⟨i, by omega, rfl⟩

/-- C5: for every range `[start, e]` with `e ≥ start`, every emitted tick `t`
satisfies `start ≤ t ≤ e` and `(t - start) % 5000 = 0`; the tick list always
contains `start` (so it is non-empty and the generator cannot fail); if
`e - start < 5000` exactly one tick is produced; and every tick is labelled
with the tick position divided by 1000, as a bare number on the axis and with
a `" kbp"` unit suffix on hover. -/
theorem tick_generation (start e : ℕ) (h : start ≤ e) :
    (∀ t ∈ chromosome_ticks start e,
      start ≤ t ∧ t ≤ e ∧ (t - start) % 5000 = 0) ∧
    start ∈ chromosome_ticks start e ∧
    chromosome_ticks start e ≠ [] ∧
    (e - start < 5000 → (chromosome_ticks start e).length = 1) ∧
    ∀ t, tick_axis_text t = toString (t / 1000) ∧
      tick_hover_text t = tick_axis_text t ++ " kbp" := by
  refine ⟨?_, ?_, ?_, ?_, ?_⟩
  · intro t ht
    obtain ⟨i, hi, rfl⟩ := (mem_chromosome_ticks start e t h).mp ht
    have h2 : 5000 * ((e - start) / 5000) ≤ e - start := Nat.mul_div_le _ _
    have h3 : 5000 * i ≤ 5000 * ((e - start) / 5000) :=
      Nat.mul_le_mul_left _ hi
    refine ⟨by omega, by omega, ?_⟩
    have h4 : start + 5000 * i - start = 5000 * i := by omega
    rw [h4]
    exact Nat.mul_mod_right _ _
  · exact (mem_chromosome_ticks start e start h).mpr ⟨0, by omega, by omega⟩
  · intro hnil
    have := (mem_chromosome_ticks start e start h).mpr ⟨0, by omega, by omega⟩
    rw [hnil] at this
    exact absurd this (List.not_mem_nil start)
  · intro hlt
    rw [chromosome_ticks_card start e h, Nat.div_eq_of_lt hlt]
  · intro t
    exact ⟨rfl, rfl⟩

theorem tick_generation_witness :
    (∀ t ∈ chromosome_ticks 1000 12000,
      1000 ≤ t ∧ t ≤ 12000 ∧ (t - 1000) % 5000 = 0) ∧
    1000 ∈ chromosome_ticks 1000 12000 ∧
    chromosome_ticks 1000 12000 = [1000, 6000, 11000] ∧
    (chromosome_ticks 1000 3000).length = 1 ∧
    tick_hover_text 6000 = "6 kbp" := by
  refine ⟨(tick_generation 1000 12000 (by norm_num)).1,
    (tick_generation 1000 12000 (by norm_num)).2.1, by decide,
    (tick_generation 1000 3000 (by norm_num)).2.2.2.1 (by norm_num), by decide⟩

end PlotBoth

namespace PlotCorr

/-- C6: the six timepoints are laid out on a 2x3 grid by floor division:
subplot of list-index `i` goes to row `i / 3 + 1` and column `i % 3 + 1`, so
the six indices map to (1,1), (1,2), (1,3), (2,1), (2,2), (2,3) in order. -/
theorem grid_layout_placement :
    timepoints_order.length = 6 ∧
    (∀ i : ℕ, subplot_pos i = (i / 3 + 1, i % 3 + 1)) ∧
    (List.range 6).map subplot_pos =
      [(1, 1), (1, 2), (1, 3), (2, 1), (2, 2), (2, 3)] ∧
    subplot_pos 0 = (1, 1) ∧ subplot_pos 3 = (2, 1) ∧ subplot_pos 5 = (2, 3) :=
  ⟨by decide, fun i => rfl, by decide, by decide, by decide, by decide⟩

end PlotCorr

namespace PlotCorr

theorem sum_map_eq_range_sum (f : ℚ → ℚ) (l : List ℚ) :
    (l.map f).sum = ∑ i ∈ Finset.range l.length, f (l.getD i 0) := by
  induction l with
  | nil => simp
  | cons h t ih =>
    rw [List.map_cons, List.sum_cons, List.length_cons, Finset.sum_range_succ', ih]
    simp [List.getD_cons_succ, List.getD_cons_zero, add_comm]

theorem sumSq_eq_range_sum (l : List ℚ) :
    sumSq l = ∑ i ∈ Finset.range l.length, l.getD i 0 * l.getD i 0 :=
  sum_map_eq_range_sum (fun v => v * v) l

theorem sumMul_eq_range_sum (a b : List ℚ) (h : a.length = b.length) :
    sumMul a b = ∑ i ∈ Finset.range a.length, a.getD i 0 * b.getD i 0 := by
  induction a generalizing b with
  | nil => simp [sumMul]
  | cons x as ih =>
    cases b with
    | nil => simp at h
    | cons y bs =>
      have hlen : as.length = bs.length := by simpa using h
      have hz : sumMul (x :: as) (y :: bs) = x * y + sumMul as bs := by
        rw [sumMul, sumMul, List.zip_cons_cons, List.map_cons, List.sum_cons]
      rw [hz, List.length_cons, Finset.sum_range_succ', ih bs hlen]
      simp [List.getD_cons_succ, List.getD_cons_zero, add_comm]

theorem list_cauchy_schwarz (a b : List ℚ) (h : a.length = b.length) :
    (sumMul a b) ^ 2 ≤ sumSq a * sumSq b := by
  rw [sumMul_eq_range_sum a b h, sumSq_eq_range_sum a, sumSq_eq_range_sum b, ← h]
  have hcs := Finset.sum_mul_sq_le_sq_mul_sq (Finset.range a.length)
    (fun i => a.getD i 0) (fun i => b.getD i 0)
  simpa [pow_two] using hcs

theorem sumSq_nonneg (l : List ℚ) : 0 ≤ sumSq l := by
  refine List.sum_nonneg ?_
  intro x hx
  obtain ⟨v, _, rfl⟩ := List.mem_map.mp hx
  exact mul_self_nonneg v

theorem sumSq_eq_zero (l : List ℚ) (h : sumSq l = 0) : ∀ v ∈ l, v = 0 := by
  induction l with
  | nil => simp
  | cons x t ih =>
    have hs : sumSq (x :: t) = x * x + sumSq t := by
      rw [sumSq, sumSq, List.map_cons, List.sum_cons]
    have hx : x * x + sumSq t = 0 := by
      rw [← hs]
      exact h
    have h1 : x * x = 0 ∧ sumSq t = 0 := by
      constructor <;> nlinarith [sumSq_nonneg t, mul_self_nonneg x]
    intro v hv
    rcases List.mem_cons.mp hv with heq | hv'
    · rw [heq]
      exact mul_self_eq_zero.mp h1.1
    · exact ih h1.2 v hv'

theorem variance_pos (l : List ℚ) (hl : l ≠ []) (h : ¬ allEqFirst l) :
    0 < sumSq (devs l) := by
  rcases lt_or_eq_of_le (sumSq_nonneg (devs l)) with hlt | heq
  · exact hlt
  · exfalso
    apply h
    intro v hv
    have hmean : ∀ w ∈ l, w = vecMean l := by
      intro w hw
      have hdev : w - vecMean l ∈ devs l := List.mem_map.mpr ⟨w, hw, rfl⟩
      have := sumSq_eq_zero (devs l) heq.symm _ hdev
      linarith [this]
    have hhead : l.headI ∈ l := by
      cases l with
      | nil => exact absurd rfl hl
      | cons a t => exact List.mem_cons_self a t
    rw [hmean v hv, hmean l.headI hhead]

theorem pearson_bounds (x y : List ℚ) (hx : x ≠ []) (hy : y ≠ [])
    (hlen : x.length = y.length) (hax : ¬ allEqFirst x) (hay : ¬ allEqFirst y) :
    -1 ≤ pearson x y ∧ pearson x y ≤ 1 := by
  have hA : 0 < sumSq (devs x) := variance_pos x hx hax
  have hB : 0 < sumSq (devs y) := variance_pos y hy hay
  have hdlen : (devs x).length = (devs y).length := by
    simpa [devs] using hlen
  have hcs : (sumMul (devs x) (devs y)) ^ 2 ≤ sumSq (devs x) * sumSq (devs y) :=
    list_cauchy_schwarz (devs x) (devs y) hdlen
  have hA' : (0 : ℝ) < ((sumSq (devs x) : ℚ) : ℝ) := by exact_mod_cast hA
  have hB' : (0 : ℝ) < ((sumSq (devs y) : ℚ) : ℝ) := by exact_mod_cast hB
  have hD : (0 : ℝ) < Real.sqrt ((sumSq (devs x) : ℚ) : ℝ) *
      Real.sqrt ((sumSq (devs y) : ℚ) : ℝ) :=
    mul_pos (Real.sqrt_pos.mpr hA') (Real.sqrt_pos.mpr hB')
  have h1 : (((sumMul (devs x) (devs y) : ℚ) : ℝ)) ^ 2 ≤
      ((sumSq (devs x) : ℚ) : ℝ) * ((sumSq (devs y) : ℚ) : ℝ) := by
    exact_mod_cast hcs
  have h2 := Real.sqrt_le_sqrt h1
  rw [Real.sqrt_sq_eq_abs, Real.sqrt_mul (le_of_lt hA')] at h2
  have h3 : |pearson x y| ≤ 1 := by
    rw [pearson, abs_div, abs_of_pos hD]
    exact (div_le_one hD).mpr h2
  exact abs_le.mp h3

theorem allEqFirst_replicate (n : ℕ) (c : ℚ) : allEqFirst (List.replicate n c) := by
  intro v hv
  rw [List.eq_of_mem_replicate hv]
  cases n with
  | zero => simp at hv
  | succ m => rw [List.replicate_succ, List.headI]

/-- C1: the per-timepoint correlation.  If either vector is constant (every
entry equals the first) the score is the non-numeric sentinel `none`
(modelling `np.nan`), never the number zero; otherwise it is the Pearson
product-moment coefficient, which lies in `[-1, 1]`.  Two equal-length
constant vectors give the sentinel; `[1,2,3]` against `[2,4,6]` gives
exactly `1` (formatted `1.00`); `[1,2,3]` against `[3,2,1]` gives exactly
`-1` (formatted `-1.00`). -/
theorem correlation_contract :
    (∀ x y : List ℚ, allEqFirst x ∨ allEqFirst y → corr_score x y = none) ∧
    (∀ x y : List ℚ, x ≠ [] → y ≠ [] → x.length = y.length →
      ¬ allEqFirst x → ¬ allEqFirst y →
      corr_score x y = some (pearson x y) ∧
        -1 ≤ pearson x y ∧ pearson x y ≤ 1) ∧
    (∀ (n : ℕ) (c d : ℚ), 0 < n →
      corr_score (List.replicate n c) (List.replicate n d) = none) ∧
    corr_score [1, 2, 3] [2, 4, 6] = some 1 ∧
    corr_score [1, 2, 3] [3, 2, 1] = some (-1) := by
  refine ⟨?_, ?_, ?_, ?_, ?_⟩
  · intro x y h
    rw [corr_score, if_pos h]
  · intro x y hx hy hlen hax hay
    refine ⟨?_, pearson_bounds x y hx hy hlen hax hay⟩
    rw [corr_score, if_neg (not_or.mpr ⟨hax, hay⟩)]
  · intro n c d _
    rw [corr_score, if_pos (Or.inl (allEqFirst_replicate n c))]
  · rw [corr_score, if_neg (by decide)]
    have hN : sumMul (devs [1, 2, 3]) (devs [2, 4, 6]) = 4 := by
      norm_num [sumMul, devs, vecMean]
    have hA : sumSq (devs [1, 2, 3]) = 2 := by
      norm_num [sumSq, devs, vecMean]
    have hB : sumSq (devs [2, 4, 6]) = 8 := by
      norm_num [sumSq, devs, vecMean]
    rw [pearson, hN, hA, hB]
    push_cast
    rw [← Real.sqrt_mul (by norm_num : (0:ℝ) ≤ 2)]
    rw [show (2 * 8 : ℝ) = 4 ^ 2 by norm_num, Real.sqrt_sq (by norm_num)]
    norm_num
  · rw [corr_score, if_neg (by decide)]
    have hN : sumMul (devs [1, 2, 3]) (devs [3, 2, 1]) = -2 := by
      norm_num [sumMul, devs, vecMean]
    have hA : sumSq (devs [1, 2, 3]) = 2 := by
      norm_num [sumSq, devs, vecMean]
    have hB : sumSq (devs [3, 2, 1]) = 2 := by
      norm_num [sumSq, devs, vecMean]
    rw [pearson, hN, hA, hB]
    push_cast
    rw [Real.mul_self_sqrt (by norm_num : (0:ℝ) ≤ 2)]
    norm_num

theorem correlation_contract_witness :
    corr_score [1, 1] [2, 2] = none ∧
    corr_score [0, 1] [0, 2] = some (pearson [0, 1] [0, 2]) ∧
    -1 ≤ pearson [0, 1] [0, 2] ∧ pearson [0, 1] [0, 2] ≤ 1 := by
  refine ⟨correlation_contract.1 [1, 1] [2, 2] (Or.inl (by decide)), ?_⟩
  have h := correlation_contract.2.1 [0, 1] [0, 2] (by decide) (by decide)
    (by decide) (by decide) (by decide)
  exact ⟨h.1, h.2.1, h.2.2⟩

/-- C9: a length-1 expression or accessibility vector trivially satisfies the
zero-variance guard (its single value equals its first value), so the
correlation score is the `none` sentinel and the Pearson branch is never
taken. -/
theorem single_observation_sentinel (x y : List ℚ)
    (h : x.length = 1 ∨ y.length = 1) : corr_score x y = none := by
  have hone : ∀ l : List ℚ, l.length = 1 → allEqFirst l := by
    intro l hl
    obtain ⟨a, ha⟩ := List.length_eq_one.mp hl
    rw [ha]
    intro v hv
    rw [List.mem_singleton.mp hv]
    rfl
  rcases h with h | h
  · rw [corr_score, if_pos (Or.inl (hone x h))]
  · rw [corr_score, if_pos (Or.inr (hone y h))]

theorem single_observation_sentinel_witness :
    corr_score [5] [1, 2] = none :=
  single_observation_sentinel [5] [1, 2] (Or.inl rfl)

end PlotCorr

namespace PlotCorr

theorem npMax_mem {l : List ℚ} (hl : l ≠ []) : npMax l ∈ l := by
  cases l with
  | nil => exact absurd rfl hl
  | cons h t => exact foldl_max_mem t h

theorem le_npMax {l : List ℚ} (hl : l ≠ []) : ∀ v ∈ l, v ≤ npMax l := by
  cases l with
  | nil => exact absurd rfl hl
  | cons h t => exact le_foldl_max t h

theorem maxStep_eq (acc : ℚ) (v : List ℚ) : maxStep acc v = max acc (npMax v) := by
  rw [maxStep]
  split_ifs with h
  · exact (max_eq_right (le_of_lt h)).symm
  · exact (max_eq_left (not_lt.mp h)).symm

theorem foldl_maxStep_eq (vs : List (List ℚ)) :
    ∀ acc : ℚ, vs.foldl maxStep acc = (vs.map npMax).foldl max acc := by
  induction vs with
  | nil => intro acc; rfl
  | cons v t ih =>
    intro acc
    rw [List.foldl_cons, List.map_cons, List.foldl_cons, maxStep_eq, ih]

theorem runningMax_eq (vs : List (List ℚ)) :
    runningMax vs = npMax (0 :: vs.map npMax) := by
  rw [runningMax, foldl_maxStep_eq, npMax]

theorem runningMax_eq_global (vs : List (List ℚ)) (hne : vs ≠ [])
    (hv : ∀ v ∈ vs, v ≠ []) (hpos : ∀ v ∈ vs, ∀ q ∈ v, 0 ≤ q) :
    runningMax vs = npMax vs.flatten := by
  have hfne : vs.flatten ≠ [] := by
    obtain ⟨v, hvmem⟩ := List.exists_mem_of_ne_nil vs hne
    obtain ⟨q, hq⟩ := List.exists_mem_of_ne_nil v (hv v hvmem)
    intro hcon
    have hmem : q ∈ vs.flatten := List.mem_flatten.mpr ⟨v, hvmem, hq⟩
    rw [hcon] at hmem
    exact absurd hmem (List.not_mem_nil q)
  rw [runningMax_eq]
  apply le_antisymm
  · have hmem := npMax_mem (l := 0 :: vs.map npMax) (by simp)
    rcases List.mem_cons.mp hmem with heq | hmem'
    · rw [heq]
      obtain ⟨q, hq⟩ := List.exists_mem_of_ne_nil vs.flatten hfne
      obtain ⟨v, hvmem, hqv⟩ := List.mem_flatten.mp hq
      exact le_trans (hpos v hvmem q hqv) (le_npMax hfne q hq)
    · obtain ⟨v, hvmem, heq⟩ := List.mem_map.mp hmem'
      rw [← heq]
      have h1 : npMax v ∈ vs.flatten :=
        List.mem_flatten.mpr ⟨v, hvmem, npMax_mem (hv v hvmem)⟩
      exact le_npMax hfne _ h1
  · have h1 := npMax_mem hfne
    obtain ⟨v, hvmem, hqv⟩ := List.mem_flatten.mp h1
    have h2 : npMax vs.flatten ≤ npMax v := le_npMax (hv v hvmem) _ hqv
    have h3 : npMax v ∈ 0 :: vs.map npMax :=
      List.mem_cons_of_mem _ (List.mem_map.mpr ⟨v, hvmem, rfl⟩)
    exact le_trans h2 (le_npMax (l := 0 :: vs.map npMax) (by simp) _ h3)

/-- C3: the shared x-axis upper bound `atac_max` (respectively y-axis bound
`rna_max`) equals the single global maximum accessibility (expression) value
across all the timepoints' vectors for the gene, every value is bounded by
it, and the range applied to every one of the subplots is `[0, atac_max]` on
x and `[0, rna_max]` on y — not each subplot's own local maximum. -/
theorem shared_axis_scaling (ds : List TpData) (hne : ds ≠ [])
    (hatac : ∀ d ∈ ds, d.atac ≠ []) (hrna : ∀ d ∈ ds, d.rna ≠ [])
    (hatac0 : ∀ d ∈ ds, ∀ q ∈ d.atac, 0 ≤ q)
    (hrna0 : ∀ d ∈ ds, ∀ q ∈ d.rna, 0 ≤ q) :
    atac_max ds = npMax (ds.map TpData.atac).flatten ∧
    rna_max ds = npMax (ds.map TpData.rna).flatten ∧
    (∀ q ∈ (ds.map TpData.atac).flatten, q ≤ atac_max ds) ∧
    (∀ q ∈ (ds.map TpData.rna).flatten, q ≤ rna_max ds) ∧
    (xaxis_ranges ds).length = ds.length ∧
    (yaxis_ranges ds).length = ds.length ∧
    (∀ r ∈ xaxis_ranges ds, r = (0, npMax (ds.map TpData.atac).flatten)) ∧
    (∀ r ∈ yaxis_ranges ds, r = (0, npMax (ds.map TpData.rna).flatten)) := by
  have hane : ds.map TpData.atac ≠ [] := by simpa using hne
  have hrne : ds.map TpData.rna ≠ [] := by simpa using hne
  have ha : atac_max ds = npMax (ds.map TpData.atac).flatten := by
    rw [atac_max]
    apply runningMax_eq_global _ hane
    · intro v hv
      obtain ⟨d, hd, rfl⟩ := List.mem_map.mp hv
      exact hatac d hd
    · intro v hv
      obtain ⟨d, hd, rfl⟩ := List.mem_map.mp hv
      exact hatac0 d hd
  have hr : rna_max ds = npMax (ds.map TpData.rna).flatten := by
    rw [rna_max]
    apply runningMax_eq_global _ hrne
    · intro v hv
      obtain ⟨d, hd, rfl⟩ := List.mem_map.mp hv
      exact hrna d hd
    · intro v hv
      obtain ⟨d, hd, rfl⟩ := List.mem_map.mp hv
      exact hrna0 d hd
  have hafne : (ds.map TpData.atac).flatten ≠ [] := by
    obtain ⟨d, hd⟩ := List.exists_mem_of_ne_nil ds hne
    obtain ⟨q, hq⟩ := List.exists_mem_of_ne_nil d.atac (hatac d hd)
    intro hcon
    have hmem : q ∈ (ds.map TpData.atac).flatten :=
      List.mem_flatten.mpr ⟨d.atac, List.mem_map.mpr ⟨d, hd, rfl⟩, hq⟩
    rw [hcon] at hmem
    exact absurd hmem (List.not_mem_nil q)
  have hrfne : (ds.map TpData.rna).flatten ≠ [] := by
    obtain ⟨d, hd⟩ := List.exists_mem_of_ne_nil ds hne
    obtain ⟨q, hq⟩ := List.exists_mem_of_ne_nil d.rna (hrna d hd)
    intro hcon
    have hmem : q ∈ (ds.map TpData.rna).flatten :=
      List.mem_flatten.mpr ⟨d.rna, List.mem_map.mpr ⟨d, hd, rfl⟩, hq⟩
    rw [hcon] at hmem
    exact absurd hmem (List.not_mem_nil q)
  refine ⟨ha, hr, ?_, ?_, by rw [xaxis_ranges, List.length_map, List.length_range],
    by rw [yaxis_ranges, List.length_map, List.length_range], ?_, ?_⟩
  · intro q hq
    rw [ha]
    exact le_npMax hafne q hq
  · intro q hq
    rw [hr]
    exact le_npMax hrfne q hq
  · intro r hrr
    obtain ⟨i, _, rfl⟩ := List.mem_map.mp hrr
    rw [ha]
  · intro r hrr
    obtain ⟨i, _, rfl⟩ := List.mem_map.mp hrr
    rw [hr]

theorem shared_axis_scaling_witness :
    atac_max [⟨[1, 3], [2, 5], ["a"]⟩, ⟨[0, 2], [1, 4], ["b"]⟩] = 5 ∧
    rna_max [⟨[1, 3], [2, 5], ["a"]⟩, ⟨[0, 2], [1, 4], ["b"]⟩] = 3 := by
  have h := shared_axis_scaling [⟨[1, 3], [2, 5], ["a"]⟩, ⟨[0, 2], [1, 4], ["b"]⟩]
    (by decide) (by decide) (by decide) (by decide) (by decide)
  refine ⟨?_, ?_⟩
  · rw [h.1]
    decide
  · rw [h.2.1]
    decide

end PlotCorr

namespace PlotCorr

theorem lookup_swap_some (entries : List (String × String))
    (hnd : (entries.map Prod.snd).Nodup) :
    ∀ q ∈ entries,
      List.lookup q.2 (entries.map (fun r => (r.2, r.1))) = some q.1 := by
  induction entries with
  | nil => simp
  | cons e t ih =>
    have hnd2 : (e.2 :: t.map Prod.snd).Nodup := by
      rw [List.map_cons] at hnd
      exact hnd
    have hcons := List.nodup_cons.mp hnd2
    intro q hq
    rcases List.mem_cons.mp hq with heq | hq'
    · rw [heq, List.map_cons, List.lookup_cons]
      simp
    · rw [List.map_cons, List.lookup_cons]
      have hne : q.2 ≠ e.2 := by
        intro hc
        apply hcons.1
        rw [← hc]
        exact List.mem_map.mpr ⟨q, hq', rfl⟩
      have hbeq : (q.2 == e.2) = false := beq_eq_false_iff_ne.mpr hne
      rw [hbeq]
      exact ih hcons.2 q hq'

theorem lookup_swap_none (entries : List (String × String)) :
    ∀ c : String, c ∉ entries.map Prod.snd →
      List.lookup c (entries.map (fun r => (r.2, r.1))) = none := by
  induction entries with
  | nil => simp
  | cons e t ih =>
    intro c hc
    rw [List.map_cons, List.lookup_cons]
    have hne : c ≠ e.2 := by
      intro heq
      exact hc (by rw [heq]; exact List.mem_cons_self _ _)
    rw [beq_eq_false_iff_ne.mpr hne]
    exact ih c (fun hmem => hc (List.mem_cons_of_mem _ hmem))

/-- C8: for any palette satisfying the spec's invariants, the cell-type to
colour mapping is injective; looking a cell type's colour up through the
inverted dictionary returns the original cell-type name for every palette
entry; and a colour absent from the palette makes the inverse lookup fail
(the `KeyError`, modelled as `none`). -/
theorem color_roundtrip (p : Palette) :
    (∀ a ∈ p.entries, ∀ b ∈ p.entries, a.2 = b.2 → a = b) ∧
    (∀ q ∈ p.entries, List.lookup q.2 (inv_color_dict p) = some q.1) ∧
    ∀ c : String, c ∉ p.entries.map Prod.snd →
      List.lookup c (inv_color_dict p) = none := by
  refine ⟨?_, ?_, ?_⟩
  · intro a ha b hb hab
    exact List.inj_on_of_nodup_map p.colors_nodup ha hb hab
  · intro q hq
    exact lookup_swap_some p.entries p.colors_nodup q hq
  · intro c hc
    exact lookup_swap_none p.entries c hc

theorem color_roundtrip_witness :
    List.lookup "#2A788E" (inv_color_dict samplePalette) = some "muscle" ∧
    List.lookup "#123456" (inv_color_dict samplePalette) = none :=
  ⟨(color_roundtrip samplePalette).2.1 ("muscle", "#2A788E") (by decide),
   (color_roundtrip samplePalette).2.2 "#123456" (by decide)⟩

end PlotCorr
